import Mathlib

/-!
Verification of the simulation core of the `spasm` sketches: a deformable
point grid pulled by keyboard-activated attractor nodes, a nearest-site
partition of a sampled domain, and a decorative particle swarm with an
asset-reshuffle policy.  Numeric code is embedded over exact numbers
(`ℚ` for data produced by the layout and the random draws, `ℝ` with
`Real.sqrt` for the Euclidean distances the physics computes).
-/

set_option autoImplicit false

namespace Spasm

/-! ### Basic data model -/

/-- p5.js `map(value, start1, stop1, start2, stop2)`:
linear re-mapping of `v` from `[a, b]` onto `[c, d]`. -/
def mapRange (v a b c d : ℚ) : ℚ :=
  c + (d - c) * ((v - a) / (b - a))

/-- One attractor ("muscle") node: `{ x, y, force }` as created in `setup`.
Positions are exact rationals produced by `mapRange`; `force` is the
activation level written by the keyboard handlers. -/
structure Node where
  x : ℚ
  y : ℚ
  force : ℚ
deriving DecidableEq

/-- One mesh grid point: current position, velocity and fixed rest
position, as pushed in `setup`. -/
structure GridPoint where
  x : ℝ
  y : ℝ
  vx : ℝ
  vy : ℝ
  rest_x : ℝ
  rest_y : ℝ

/-- p5.js `dist(x1, y1, x2, y2)`: Euclidean distance. -/
noncomputable def distR (x1 y1 x2 y2 : ℝ) : ℝ :=
  Real.sqrt ((x2 - x1) ^ 2 + (y2 - y1) ^ 2)

/-! ### Mesh physics pass (`draw`, part_000 lines 56-77)

For each grid point `p` the source computes
`fx = (p.rest_x - p.x) * kRest` (spring to rest), then for every node
with `node.force > 0 && dist(p, node) < 180` adds
`(node.x - p.x) * strength * 0.01` with
`strength = 3 * node.force * (180 - d) / 180`; finally
`p.vx = (p.vx + fx) * 0.88; p.x += p.vx` (same for `y`). -/

/-- One in-place update of a single grid point, translated from the inner
body of the mesh-physics loop. -/
noncomputable def stepPoint (nodes : List Node) (kRest : ℝ) (p : GridPoint) :
    GridPoint :=
  let fx := (p.rest_x - p.x) * kRest
  let fy := (p.rest_y - p.y) * kRest
  let f := nodes.foldl (fun (acc : ℝ × ℝ) node =>
    let d := distR p.x p.y (node.x : ℝ) (node.y : ℝ)
    if node.force > 0 ∧ d < 180 then
      let strength := 3 * (node.force : ℝ) * (180 - d) / 180
      (acc.1 + ((node.x : ℝ) - p.x) * strength * 0.01,
       acc.2 + ((node.y : ℝ) - p.y) * strength * 0.01)
    else acc) (fx, fy)
  let vx := (p.vx + f.1) * 0.88
  let vy := (p.vy + f.2) * 0.88
  { x := p.x + vx, y := p.y + vy, vx := vx, vy := vy,
    rest_x := p.rest_x, rest_y := p.rest_y }

/-- The x-component of the pull exerted on point `p` by a single node, as
the spec states it: active nodes closer than 180 contribute
`(node.x - p.x) * (3 * force * (180 - d) / 180) * 0.01`, others nothing. -/
noncomputable def pullX (p : GridPoint) (node : Node) : ℝ :=
  if node.force > 0 ∧ distR p.x p.y (node.x : ℝ) (node.y : ℝ) < 180 then
    ((node.x : ℝ) - p.x) *
      (3 * (node.force : ℝ) *
        (180 - distR p.x p.y (node.x : ℝ) (node.y : ℝ)) / 180) * 0.01
  else 0

/-- The y-component of the pull exerted on point `p` by a single node. -/
noncomputable def pullY (p : GridPoint) (node : Node) : ℝ :=
  if node.force > 0 ∧ distR p.x p.y (node.x : ℝ) (node.y : ℝ) < 180 then
    ((node.y : ℝ) - p.y) *
      (3 * (node.force : ℝ) *
        (180 - distR p.x p.y (node.x : ℝ) (node.y : ℝ)) / 180) * 0.01
  else 0

/-- The force-accumulation fold of `stepPoint` adds, to whatever initial
force it is given, exactly the linear sum of the per-node pulls. -/
lemma pullFold (p : GridPoint) :
    ∀ (l : List Node) (a b : ℝ),
      l.foldl (fun (acc : ℝ × ℝ) node =>
        let d := distR p.x p.y (node.x : ℝ) (node.y : ℝ)
        if node.force > 0 ∧ d < 180 then
          let strength := 3 * (node.force : ℝ) * (180 - d) / 180
          (acc.1 + ((node.x : ℝ) - p.x) * strength * 0.01,
           acc.2 + ((node.y : ℝ) - p.y) * strength * 0.01)
        else acc) (a, b)
      = (a + (l.map (pullX p)).sum, b + (l.map (pullY p)).sum)
  | [], a, b => by simp
  | n :: t, a, b => by
    simp only [List.foldl_cons, List.map_cons, List.sum_cons]
    by_cases h : n.force > 0 ∧ distR p.x p.y (n.x : ℝ) (n.y : ℝ) < 180
    · rw [if_pos h, pullFold p t]
      simp only [pullX, pullY, if_pos h, Prod.mk.injEq]
      exact ⟨by ring, by ring⟩
    · rw [if_neg h, pullFold p t]
      simp only [pullX, pullY, if_neg h, Prod.mk.injEq]
      exact ⟨by ring, by ring⟩

/-- C1.  One step of the grid simulator on any grid point computes the
total force as the spring term `kRest * (rest - position)` plus the
linear sum over all nodes of the pull terms
`(node - position) * (3 * force * (180 - d) / 180) * 0.01` (active nodes
within distance 180 only), then sets velocity to
`(velocity + force) * 0.88` and position to `position + new velocity`. -/
theorem C1_step_force_formula (nodes : List Node) (kRest : ℝ) (p : GridPoint) :
    stepPoint nodes kRest p =
      { x := p.x + (p.vx + ((p.rest_x - p.x) * kRest
                + (nodes.map (pullX p)).sum)) * 0.88,
        y := p.y + (p.vy + ((p.rest_y - p.y) * kRest
                + (nodes.map (pullY p)).sum)) * 0.88,
        vx := (p.vx + ((p.rest_x - p.x) * kRest
                + (nodes.map (pullX p)).sum)) * 0.88,
        vy := (p.vy + ((p.rest_y - p.y) * kRest
                + (nodes.map (pullY p)).sum)) * 0.88,
        rest_x := p.rest_x, rest_y := p.rest_y } := by
  unfold stepPoint
  simp only [pullFold p nodes]

/-- C3 scenario data: one attractor at the origin with activation 1. -/
def node00 : Node := ⟨0, 0, 1⟩

/-- C3 scenario data: a grid point at rest at `(100, 0)`, zero velocity. -/
noncomputable def p100 : GridPoint := ⟨100, 0, 0, 0, 100, 0⟩

/-- C3.  With one attractor at the origin (activation 1) and a grid point
at rest at `(100, 0)` with zero velocity, one step with the part_000
coefficients (spring 0.08, pull strength 3, pull coefficient 0.01,
damping 0.88, radius 180) moves the point strictly toward the attractor
without overshooting: the new x is strictly between 0 and 100. -/
theorem C3_single_step_moves_toward_attractor :
    0 < (stepPoint [node00] 0.08 p100).x ∧
      (stepPoint [node00] 0.08 p100).x < 100 := by
  have hd : distR p100.x p100.y ((node00.x : ℚ) : ℝ) ((node00.y : ℚ) : ℝ)
      = 100 := by
    show distR 100 0 ((0 : ℚ) : ℝ) ((0 : ℚ) : ℝ) = 100
    unfold distR
    push_cast
    rw [show ((0 : ℝ) - 100) ^ 2 + ((0 : ℝ) - 0) ^ 2 = 100 ^ 2 by norm_num]
    exact Real.sqrt_sq (by norm_num)
  have hcond : node00.force > 0 ∧
      distR p100.x p100.y ((node00.x : ℚ) : ℝ) ((node00.y : ℚ) : ℝ) < 180 := by
    refine ⟨by decide, ?_⟩
    rw [hd]; norm_num
  rw [C1_step_force_formula]
  simp only [List.map_cons, List.map_nil, List.sum_cons, List.sum_nil,
    pullX, if_pos hcond, hd]
  simp only [p100, node00]
  push_cast
  norm_num

/-! ### Attractor layout and keyboard activation
(`setup` muscle-node creation and `keyPressed`/`keyReleased`,
part_000 lines 30-48 and 128-139) -/

/-- The fixed QWERTY row layout from `setup`. -/
def keyboardRows : List (List Char) :=
  [String.toList "qwertyuiop", String.toList "asdfghjkl", String.toList "zxcvbnm"]

/-- `setup` loop that pushes one node per key and records
`keyToNode[key] = nodes.length - 1` (part_000 bounds: x in [-400, 400],
y in [-250, 250]). -/
def buildNodes : List Node × List (Char × Nat) :=
  (List.range keyboardRows.length).foldl (fun acc (row : ℕ) =>
    let keys := keyboardRows.getD row []
    let y := mapRange (row : ℚ) 0 ((keyboardRows.length - 1 : ℕ) : ℚ) (-250) 250
    (List.range keys.length).foldl (fun acc2 (col : ℕ) =>
      let x := mapRange (col : ℚ) 0 ((keys.length - 1 : ℕ) : ℚ) (-400) 400
      let key := keys.getD col ' '
      (acc2.1 ++ [⟨x, y, 0⟩], acc2.2 ++ [(key, acc2.1.length)])) acc)
    ([], [])

/-- The global `nodes` array right after `setup`. -/
def layoutNodes : List Node := buildNodes.1

/-- The global `keyToNode` map right after `setup`, as an association
list in insertion order. -/
def keyToNode : List (Char × Nat) := buildNodes.2

/-- First-match association-list lookup (JS object property read for the
maps built here, whose keys are unique). -/
def lookupA {α β : Type} [DecidableEq α] : List (α × β) → α → Option β
  | [], _ => none
  | (k, v) :: t, c => if k = c then some v else lookupA t c

/-- `nodes[i].force = f`: in-place field write at index `i`, a no-op past
the end of the list. -/
def setForce : List Node → ℕ → ℚ → List Node
  | [], _, _ => []
  | n :: t, 0, f => { n with force := f } :: t
  | n :: t, i + 1, f => n :: setForce t i f

/-- Activation read-back used to state the claims. -/
def getForce (st : List Node) (i : ℕ) : ℚ :=
  (st.getD i ⟨0, 0, 0⟩).force

/-- `keyPressed`: `k = key.toLowerCase(); if (k in keyToNode)
nodes[keyToNode[k]].force = 1`. -/
def activate (st : List Node) (c : Char) : List Node :=
  match lookupA keyToNode c.toLower with
  | some i => setForce st i 1
  | none => st

/-- `keyReleased`: same guard, writes activation 0. -/
def deactivate (st : List Node) (c : Char) : List Node :=
  match lookupA keyToNode c.toLower with
  | some i => setForce st i 0
  | none => st

lemma getForce_setForce_self :
    ∀ (st : List Node) (i : ℕ) (f : ℚ), i < st.length →
      getForce (setForce st i f) i = f
  | [], i, f, h => absurd h (by simp)
  | n :: t, 0, f, _ => rfl
  | n :: t, i + 1, f, h =>
    getForce_setForce_self t i f (Nat.lt_of_succ_lt_succ h)

lemma setForce_setForce :
    ∀ (st : List Node) (i : ℕ) (f g : ℚ),
      setForce (setForce st i f) i g = setForce st i g
  | [], _, _, _ => rfl
  | n :: t, 0, f, g => rfl
  | n :: t, i + 1, f, g => by
    simp only [setForce, List.cons.injEq, true_and]
    exact setForce_setForce t i f g

lemma setForce_length :
    ∀ (st : List Node) (i : ℕ) (f : ℚ),
      (setForce st i f).length = st.length
  | [], _, _ => rfl
  | n :: t, 0, f => rfl
  | n :: t, i + 1, f => by
    simp only [setForce, List.length_cons]
    exact congrArg Nat.succ (setForce_length t i f)

/-- C4.  `activate`/`deactivate` are no-ops on symbols whose lowercase
form is not in the key map and never fail; on a known symbol mapped to
index `i` they set that node's activation to 1 (resp. 0); the
activate-then-deactivate round trip leaves activation 0, and both
operations are idempotent. -/
theorem C4_activation_operations (st : List Node) (c : Char) :
    (lookupA keyToNode c.toLower = none →
      activate st c = st ∧ deactivate st c = st) ∧
    (∀ i, lookupA keyToNode c.toLower = some i → i < st.length →
      getForce (activate st c) i = 1 ∧
      getForce (deactivate st c) i = 0 ∧
      getForce (deactivate (activate st c) c) i = 0 ∧
      activate (activate st c) c = activate st c ∧
      deactivate (deactivate st c) c = deactivate st c) := by
  constructor
  · intro h
    constructor <;> simp only [activate, deactivate, h]
  · intro i h hlen
    have ha : activate st c = setForce st i 1 := by
      simp only [activate, h]
    have hdd : deactivate st c = setForce st i 0 := by
      simp only [deactivate, h]
    have hda : deactivate (activate st c) c = setForce st i 0 := by
      rw [ha]
      simp only [deactivate, h, setForce_setForce]
    refine ⟨?_, ?_, ?_, ?_, ?_⟩
    · rw [ha]; exact getForce_setForce_self st i 1 hlen
    · rw [hdd]; exact getForce_setForce_self st i 0 hlen
    · rw [hda]
      exact getForce_setForce_self st i 0 hlen
    · rw [ha]
      simp only [activate, h, setForce_setForce]
    · rw [hdd]
      simp only [deactivate, h, setForce_setForce]

/-- C4 witness: the uppercase symbol `Q` is case-folded to `q`, which is
mapped to node 0 of the freshly built layout; the claimed activation
values hold there concretely. -/
theorem C4_activation_operations_witness :
    lookupA keyToNode 'Q'.toLower = some 0 ∧ 0 < layoutNodes.length ∧
      getForce (activate layoutNodes 'Q') 0 = 1 ∧
      getForce (deactivate layoutNodes 'Q') 0 = 0 ∧
      getForce (deactivate (activate layoutNodes 'Q') 'Q') 0 = 0 ∧
      activate (activate layoutNodes 'Q') 'Q' = activate layoutNodes 'Q' :=
  ⟨by decide, by decide,
    ((C4_activation_operations layoutNodes 'Q').2 0 (by decide) (by decide)).1,
    ((C4_activation_operations layoutNodes 'Q').2 0 (by decide) (by decide)).2.1,
    ((C4_activation_operations layoutNodes 'Q').2 0 (by decide) (by decide)).2.2.1,
    ((C4_activation_operations layoutNodes 'Q').2 0 (by decide) (by decide)).2.2.2.1⟩

/-! ### Voronoi classification pass (`draw`, part_000 lines 79-93)

Per frame the source samples `x` from -400 while `< 400` and `y` from
-250 while `< 250`, step 16 each, and for every sample scans all
`voronoiSites` keeping the first strict minimum of the distance, starting
from `minD = 1e9, minIdx = -1`; it then pushes the sample onto
`cellMap[minIdx]`, creating the key when absent. -/

/-- The x loop `for (let x = -400; x < 400; x += 16)` runs exactly for
`-400 + 16*i` with `i < 50` (the value at `i = 50` is 400, not `< 400`). -/
def sampleXs : List ℚ := (List.range 50).map (fun (i : ℕ) => -400 + 16 * (i : ℚ))

/-- The y loop `for (let y = -250; y < 250; y += 16)` runs exactly for
`-250 + 16*i` with `i < 32` (the value at `i = 32` is 262, not `< 250`). -/
def sampleYs : List ℚ := (List.range 32).map (fun (i : ℕ) => -250 + 16 * (i : ℚ))

/-- All sample points in source iteration order (x outer, y inner). -/
def samples : List (ℚ × ℚ) :=
  sampleXs.flatMap (fun x => sampleYs.map (fun y => (x, y)))

/-- Euclidean distance between two rational points. -/
noncomputable def distQ (s t : ℚ × ℚ) : ℝ :=
  distR (s.1 : ℝ) (s.2 : ℝ) (t.1 : ℝ) (t.2 : ℝ)

/-- The inner site scan for one sample: carry `(minD, minIdx)` from
`(1e9, -1)`, updating on strict improvement `d < minD`. -/
noncomputable def classify (sites : List (ℚ × ℚ)) (s : ℚ × ℚ) : ℝ × ℤ :=
  (List.range sites.length).foldl (fun acc (i : ℕ) =>
    let d := distQ s (sites.getD i (0, 0))
    if d < acc.1 then (d, (i : ℤ)) else acc) ((1e9 : ℝ), (-1 : ℤ))

/-- `if (!cellMap[minIdx]) cellMap[minIdx] = []; cellMap[minIdx].push(p)`:
append `v` to the entry of key `k`, creating the entry when absent. -/
def upsert {α : Type} : List (ℤ × List α) → ℤ → α → List (ℤ × List α)
  | [], k, v => [(k, [v])]
  | (k2, vs) :: rest, k, v =>
    if k2 = k then (k2, vs ++ [v]) :: rest else (k2, vs) :: upsert rest k v

/-- The full `cellMap` built over all samples of one frame. -/
noncomputable def cellMap (sites : List (ℚ × ℚ)) : List (ℤ × List (ℚ × ℚ)) :=
  samples.foldl (fun m s => upsert m (classify sites s).2 s) []

/-- The list of samples assigned to attractor index `k`. -/
noncomputable def bucket (sites : List (ℚ × ℚ)) (k : ℤ) : List (ℚ × ℚ) :=
  (lookupA (cellMap sites) k).getD []

lemma lookupA_upsert_self {α : Type} :
    ∀ (m : List (ℤ × List α)) (k : ℤ) (v : α),
      lookupA (upsert m k v) k = some ((lookupA m k).getD [] ++ [v])
  | [], k, v => by simp [upsert, lookupA]
  | (k2, vs) :: rest, k, v => by
    by_cases h : k2 = k
    · subst h
      simp [upsert, lookupA]
    · simp only [upsert, if_neg h, lookupA, if_neg h]
      exact lookupA_upsert_self rest k v

lemma lookupA_upsert_ne {α : Type} :
    ∀ (m : List (ℤ × List α)) (k k2 : ℤ) (v : α), k ≠ k2 →
      lookupA (upsert m k v) k2 = lookupA m k2
  | [], k, k2, v, h => by simp [upsert, lookupA, h]
  | (k3, vs) :: rest, k, k2, v, h => by
    by_cases h3 : k3 = k
    · subst h3
      simp [upsert, lookupA, h]
    · simp only [upsert, if_neg h3, lookupA]
      by_cases h32 : k3 = k2
      · simp [h32]
      · simp only [if_neg h32]
        exact lookupA_upsert_ne rest k k2 v h

/-- Grouping characterization: folding `upsert` keyed by `f` over a list
extends each key's entry with exactly the elements classified to it, in
order. -/
lemma foldl_upsert_bucket {α : Type} (f : α → ℤ) (k : ℤ) :
    ∀ (l : List α) (m : List (ℤ × List α)),
      (lookupA (l.foldl (fun m s => upsert m (f s) s) m) k).getD []
        = (lookupA m k).getD [] ++ l.filter (fun s => f s == k)
  | [], m => by simp
  | s :: t, m => by
    simp only [List.foldl_cons]
    rw [foldl_upsert_bucket f k t]
    by_cases h : f s = k
    · subst h
      rw [lookupA_upsert_self]
      simp [List.filter_cons]
    · rw [lookupA_upsert_ne m (f s) k s h]
      simp [List.filter_cons, h]

/-- Membership in a bucket is exactly membership in the sample list with
the matching classification index. -/
@[simp] lemma lookupA_nil {α β : Type} [DecidableEq α] (c : α) :
    lookupA ([] : List (α × β)) c = none := rfl

lemma mem_bucket_iff (sites : List (ℚ × ℚ)) (k : ℤ) (s : ℚ × ℚ) :
    s ∈ bucket sites k ↔ s ∈ samples ∧ (classify sites s).2 = k := by
  unfold bucket cellMap
  rw [foldl_upsert_bucket (fun s => (classify sites s).2) k samples []]
  simp [List.mem_filter]

/-- The generic form of the site scan, over an abstract distance
function. -/
noncomputable def argminLoop (dist : ℕ → ℝ) (n : ℕ) : ℝ × ℤ :=
  (List.range n).foldl (fun acc (i : ℕ) =>
    if dist i < acc.1 then (dist i, (i : ℤ)) else acc) ((1e9 : ℝ), (-1 : ℤ))

lemma classify_eq_argminLoop (sites : List (ℚ × ℚ)) (s : ℚ × ℚ) :
    classify sites s
      = argminLoop (fun i => distQ s (sites.getD i (0, 0))) sites.length := rfl

/-- Full characterization of the scan: either no site ever beats the
`1e9` sentinel and the state stays `(1e9, -1)`, or the result is the
first index attaining the minimum distance. -/
lemma argminLoop_spec (dist : ℕ → ℝ) :
    ∀ n : ℕ,
      (argminLoop dist n = ((1e9 : ℝ), (-1 : ℤ)) ∧ ∀ i < n, ¬(dist i < 1e9))
      ∨ (∃ j : ℕ, j < n ∧ argminLoop dist n = (dist j, (j : ℤ)) ∧
          dist j < 1e9 ∧ (∀ i < n, dist j ≤ dist i) ∧ ∀ i < j, dist j < dist i) := by
  intro n
  induction n with
  | zero => exact Or.inl ⟨rfl, by omega⟩
  | succ n ih =>
    have hstep : argminLoop dist (n + 1)
        = if dist n < (argminLoop dist n).1
          then (dist n, (n : ℤ)) else argminLoop dist n := by
      unfold argminLoop
      rw [List.range_succ, List.foldl_append]
      simp
    rcases ih with ⟨heq, hall⟩ | ⟨j, hj, heq, hlt, hmin, hfirst⟩
    · rw [heq] at hstep
      by_cases h : dist n < 1e9
      · refine Or.inr ⟨n, Nat.lt_succ_self n, ?_, h, ?_, ?_⟩
        · rw [hstep]; simp [h]
        · intro i hi
          rcases Nat.lt_succ_iff_lt_or_eq.mp hi with hi | rfl
          · exact le_of_lt (lt_of_lt_of_le h (le_of_not_lt (hall i hi)))
          · exact le_refl _
        · intro i hi
          exact lt_of_lt_of_le h (le_of_not_lt (hall i hi))
      · refine Or.inl ⟨?_, ?_⟩
        · rw [hstep]; simp [h]
        · intro i hi
          rcases Nat.lt_succ_iff_lt_or_eq.mp hi with hi | rfl
          · exact hall i hi
          · exact h
    · rw [heq] at hstep
      by_cases h : dist n < dist j
      · refine Or.inr ⟨n, Nat.lt_succ_self n, ?_, lt_trans h hlt, ?_, ?_⟩
        · rw [hstep]; simp [h]
        · intro i hi
          rcases Nat.lt_succ_iff_lt_or_eq.mp hi with hi | rfl
          · exact le_of_lt (lt_of_lt_of_le h (hmin i hi))
          · exact le_refl _
        · intro i hi
          exact lt_of_lt_of_le h (hmin i hi)
      · refine Or.inr ⟨j, Nat.lt_succ_of_lt hj, ?_, hlt, ?_, hfirst⟩
        · rw [hstep]; simp [h]
        · intro i hi
          rcases Nat.lt_succ_iff_lt_or_eq.mp hi with hi | rfl
          · exact hmin i hi
          · exact le_of_not_lt h

/-- `voronoiSites = nodes.map(n => ({x: n.x, y: n.y}))` on the freshly
built layout. -/
def layoutSites : List (ℚ × ℚ) := layoutNodes.map (fun n => (n.x, n.y))

/-- C2.  For a non-empty site list (whose first site is nearer than the
`1e9` sentinel, as every site of the layout is from every sample), each
sample is assigned exactly one site index: the index is in range, its
distance is minimal among all sites, any earlier-scanned site is
strictly farther (first-minimum tie-break), and the sample lands in
exactly the bucket of its assigned index. -/
theorem C2_partition_assigns_nearest (sites : List (ℚ × ℚ)) (s : ℚ × ℚ)
    (hs : s ∈ samples) (hne : sites ≠ [])
    (hclose : distQ s (sites.getD 0 (0, 0)) < 1e9) :
    ∃ j : ℕ, j < sites.length ∧ (classify sites s).2 = (j : ℤ) ∧
      (∀ i < sites.length,
        distQ s (sites.getD j (0, 0)) ≤ distQ s (sites.getD i (0, 0))) ∧
      (∀ i < j,
        distQ s (sites.getD j (0, 0)) < distQ s (sites.getD i (0, 0))) ∧
      (∀ k : ℤ, s ∈ bucket sites k ↔ k = (classify sites s).2) := by
  have hlen : 0 < sites.length := List.length_pos.mpr hne
  rcases argminLoop_spec (fun i => distQ s (sites.getD i (0, 0)))
      sites.length with ⟨_, hall⟩ | ⟨j, hj, heq, _, hmin, hfirst⟩
  · exact absurd hclose (hall 0 hlen)
  · refine ⟨j, hj, ?_, hmin, hfirst, ?_⟩
    · rw [classify_eq_argminLoop, heq]
    · intro k
      rw [mem_bucket_iff]
      constructor
      · rintro ⟨_, hk⟩; exact hk.symm
      · intro hk; exact ⟨hs, hk.symm⟩

/-- C2 witness: the sample `(-400, -250)` against the actual layout sites
(the first site, key `q`, sits exactly there, distance 0). -/
theorem C2_partition_assigns_nearest_witness :
    ((-400, -250) : ℚ × ℚ) ∈ samples ∧ layoutSites ≠ [] ∧
      distQ (-400, -250) (layoutSites.getD 0 (0, 0)) < 1e9 ∧
      (∃ j : ℕ, j < layoutSites.length ∧
        (classify layoutSites (-400, -250)).2 = (j : ℤ) ∧
        (∀ i < layoutSites.length,
          distQ (-400, -250) (layoutSites.getD j (0, 0))
            ≤ distQ (-400, -250) (layoutSites.getD i (0, 0))) ∧
        (∀ i < j,
          distQ (-400, -250) (layoutSites.getD j (0, 0))
            < distQ (-400, -250) (layoutSites.getD i (0, 0))) ∧
        (∀ k : ℤ, (-400, -250) ∈ bucket layoutSites k
          ↔ k = (classify layoutSites (-400, -250)).2)) := by
  have h0 : layoutSites.getD 0 (0, 0) = ((-400 : ℚ), (-250 : ℚ)) := by
    with_unfolding_all decide
  have hclose : distQ (-400, -250) (layoutSites.getD 0 (0, 0)) < 1e9 := by
    rw [h0]
    unfold distQ distR
    push_cast
    rw [show ((-400 : ℝ) - -400) ^ 2 + ((-250 : ℝ) - -250) ^ 2 = 0 by norm_num]
    rw [Real.sqrt_zero]
    norm_num
  exact ⟨by with_unfolding_all decide, by decide, hclose,
    C2_partition_assigns_nearest layoutSites (-400, -250)
      (by with_unfolding_all decide) (by decide) hclose⟩

/-- On the empty site list the scan never runs: every sample keeps the
sentinel classification `(1e9, -1)`. -/
lemma classify_nil (s : ℚ × ℚ) :
    classify [] s = ((1e9 : ℝ), (-1 : ℤ)) := rfl

/-- Folding a constant-key `upsert` over a list piles everything into the
single entry of that key. -/
lemma foldl_upsert_const {α : Type} (c : ℤ) :
    ∀ (l : List α) (acc : List α),
      l.foldl (fun m s => upsert m c s) [(c, acc)] = [(c, acc ++ l)]
  | [], acc => by simp
  | s :: t, acc => by
    simp only [List.foldl_cons, upsert, if_pos rfl, if_true]
    rw [foldl_upsert_const c t (acc ++ [s])]
    simp

/-- With no sites, the frame's `cellMap` is the one-entry map sending the
sentinel `-1` to every sample, in order. -/
lemma cellMap_nil : cellMap [] = [((-1 : ℤ), samples)] := by
  unfold cellMap
  have : ∀ (l : List (ℚ × ℚ)) (hl : l ≠ []),
      l.foldl (fun m s => upsert m (classify [] s).2 s) [] = [((-1 : ℤ), l)] := by
    intro l hl
    match l with
    | [] => exact absurd rfl hl
    | s :: t =>
      simp only [List.foldl_cons, classify_nil, upsert]
      rw [foldl_upsert_const (-1) t [s]]
      simp
  exact this samples (by decide)

/-- C6 counterexample: `partition()` on an empty attractor set does NOT
return an empty mapping — the JS object acquires the key `-1` and every
sample is pushed under it, so the map has exactly one entry. -/
theorem C6_empty_sites_map_not_empty :
    cellMap [] ≠ [] ∧ (cellMap []).length = 1 := by
  rw [cellMap_nil]
  exact ⟨by simp, rfl⟩

/-- C6 (amended).  On an empty attractor set every sample is assigned the
sentinel index `-1`, and the resulting mapping is the single-entry map
from `-1` to the full sample list (rather than the empty mapping the
claim states). -/
theorem C6_empty_sites_sentinel :
    cellMap [] = [((-1 : ℤ), samples)] ∧
      ∀ s ∈ samples, (classify [] s).2 = -1 :=
  ⟨cellMap_nil, fun _ _ => rfl⟩

/-- C6 witness: the first sample concretely receives the sentinel. -/
theorem C6_empty_sites_sentinel_witness :
    cellMap [] = [((-1 : ℤ), samples)] ∧
      ((-400, -250) : ℚ × ℚ) ∈ samples ∧
      (classify [] ((-400 : ℚ), (-250 : ℚ))).2 = -1 :=
  ⟨C6_empty_sites_sentinel.1, by with_unfolding_all decide,
    C6_empty_sites_sentinel.2 (-400, -250) (by with_unfolding_all decide)⟩

/-! ### Particle swarm and asset reshuffle
(`draw` reshuffle block, sperm.js lines 104-116 / sperm2.js 116-128)

Every interval the source runs 36 iterations of
`i = floor(random(spermCells.length)); j = floor(random(...));
temp = cells[i].img; cells[i].img = cells[j].img; cells[j].img = temp`.
Array reads are embedded as `Option`-valued lookups so the
out-of-bounds access (a JS `TypeError`) is an explicit error branch. -/

/-- One swarm particle (sperm.js fields; the scatter variant simply never
reads `meshIdx`).  `img` is the opaque asset reference, kept as the asset
index. -/
structure Particle where
  x : ℚ
  y : ℚ
  vx : ℚ
  vy : ℚ
  img : ℕ
  meshIdx : ℕ × ℕ
  scale : ℚ
  angle : ℚ
  angleSpeed : ℚ
deriving DecidableEq

/-- Every field of a particle except the asset reference. -/
def motion (p : Particle) : ℚ × ℚ × ℚ × ℚ × (ℕ × ℕ) × ℚ × ℚ × ℚ :=
  (p.x, p.y, p.vx, p.vy, p.meshIdx, p.scale, p.angle, p.angleSpeed)

/-- One `img` swap between indices `i` and `j`, with each element access
fallible exactly where the JS indexing is. -/
def swapImg (ps : List Particle) (i j : ℕ) : Option (List Particle) :=
  match ps[i]?, ps[j]? with
  | some a, some b =>
    let ps1 := ps.set i { a with img := b.img }
    match ps1[j]? with
    | some c2 => some (ps1.set j { c2 with img := a.img })
    | _ => none
  | _, _ => none

/-- One reshuffle event: the 36-iteration swap loop, with its drawn index
pairs abstracted as an input list. -/
def reshuffleEvent (ps : List Particle) (pairs : List (ℕ × ℕ)) :
    Option (List Particle) :=
  pairs.foldlM (fun ps2 pr => swapImg ps2 pr.1 pr.2) ps

/-- A sequence of reshuffle events. -/
def reshuffleRun (ps : List Particle) (events : List (List (ℕ × ℕ))) :
    Option (List Particle) :=
  events.foldlM (fun ps2 e => reshuffleEvent ps2 e) ps

lemma get_cons_set_perm {α : Type} :
    ∀ (t : List α) (m : ℕ) (h : m < t.length) (x : α),
      (t.get ⟨m, h⟩ :: t.set m x).Perm (x :: t)
  | y :: s, 0, _, x => List.Perm.swap x y s
  | y :: s, m + 1, h, x => by
    have hm : m < s.length := Nat.lt_of_succ_lt_succ h
    show (s.get ⟨m, hm⟩ :: y :: s.set m x).Perm (x :: y :: s)
    exact (List.Perm.swap y (s.get ⟨m, hm⟩) (s.set m x)).trans
      (((get_cons_set_perm s m hm x).cons y).trans (List.Perm.swap x y s))

/-- Writing `l[j]` at position `i` and `l[i]` at position `j` permutes the
list (it is either a transposition or, for `i = j`, the identity). -/
lemma perm_set_swap {α : Type} :
    ∀ (l : List α) (i j : ℕ) (hi : i < l.length) (hj : j < l.length),
      ((l.set i (l.get ⟨j, hj⟩)).set j (l.get ⟨i, hi⟩)).Perm l
  | [], i, j, hi, _ => absurd hi (by simp)
  | x :: t, 0, 0, _, _ => by simp
  | x :: t, 0, m + 1, hi, hj => by
    have hm : m < t.length := Nat.lt_of_succ_lt_succ hj
    show ((t.get ⟨m, hm⟩ :: t).set (m + 1) x).Perm (x :: t)
    show (t.get ⟨m, hm⟩ :: t.set m x).Perm (x :: t)
    exact get_cons_set_perm t m hm x
  | x :: t, m + 1, 0, hi, hj => by
    have hm : m < t.length := Nat.lt_of_succ_lt_succ hi
    show (((x :: t).set (m + 1) x).set 0 (t.get ⟨m, hm⟩)).Perm (x :: t)
    show (t.get ⟨m, hm⟩ :: t.set m x).Perm (x :: t)
    exact get_cons_set_perm t m hm x
  | x :: t, i + 1, j + 1, hi, hj => by
    have hi2 : i < t.length := Nat.lt_of_succ_lt_succ hi
    have hj2 : j < t.length := Nat.lt_of_succ_lt_succ hj
    show (x :: (t.set i (t.get ⟨j, hj2⟩)).set j (t.get ⟨i, hi2⟩)).Perm (x :: t)
    exact (perm_set_swap t i j hi2 hj2).cons x

lemma set_get_self {α : Type} :
    ∀ (l : List α) (i : ℕ) (h : i < l.length), l.set i (l.get ⟨i, h⟩) = l
  | [], i, h => absurd h (by simp)
  | x :: t, 0, _ => rfl
  | x :: t, i + 1, h => by
    show x :: t.set i (t.get ⟨i, Nat.lt_of_succ_lt_succ h⟩) = x :: t
    rw [set_get_self t i (Nat.lt_of_succ_lt_succ h)]

/-- A successful swap preserves length, permutes only the asset
references, and leaves every non-asset field of every particle in
place. -/
lemma swapImg_spec (ps qs : List Particle) (i j : ℕ)
    (h : swapImg ps i j = some qs) :
    qs.length = ps.length ∧
      (qs.map Particle.img).Perm (ps.map Particle.img) ∧
      qs.map motion = ps.map motion := by
  unfold swapImg at h
  cases hi : ps[i]? with
  | none => rw [hi] at h; cases h
  | some a =>
    cases hj : ps[j]? with
    | none => rw [hi, hj] at h; cases h
    | some b =>
      rw [hi, hj] at h
      dsimp only [] at h
      obtain ⟨hilen, hia⟩ := List.getElem?_eq_some.mp hi
      obtain ⟨hjlen, hjb⟩ := List.getElem?_eq_some.mp hj
      cases hc : (ps.set i { a with img := b.img })[j]? with
      | none => rw [hc] at h; cases h
      | some c2 =>
        rw [hc] at h
        dsimp only [] at h
        rw [Option.some.injEq] at h
        subst h
        obtain ⟨hjlen2, hc2⟩ := List.getElem?_eq_some.mp hc
        refine ⟨by simp, ?_, ?_⟩
        · have himg : ((ps.set i { a with img := b.img }).set j
              { c2 with img := a.img }).map Particle.img
              = ((ps.map Particle.img).set i b.img).set j a.img := by
            simp [List.map_set]
          rw [himg]
          have hbi : b.img = (ps.map Particle.img).get
              ⟨j, by simpa using hjlen⟩ := by
            simp [List.get_eq_getElem, List.getElem_map, hjb]
          have hai : a.img = (ps.map Particle.img).get
              ⟨i, by simpa using hilen⟩ := by
            simp [List.get_eq_getElem, List.getElem_map, hia]
          rw [hbi, hai]
          exact perm_set_swap (ps.map Particle.img) i j (by simpa using hilen)
            (by simpa using hjlen)
        · have hm1 : (ps.set i { a with img := b.img }).map motion
              = ps.map motion := by
            rw [List.map_set]
            have he : motion { a with img := b.img } = motion a := rfl
            have ha2 : motion a = (ps.map motion).get
                ⟨i, by simpa using hilen⟩ := by
              simp [List.get_eq_getElem, List.getElem_map, hia]
            rw [he, ha2, set_get_self (ps.map motion) i (by simpa using hilen)]
          have hm2 : ((ps.set i { a with img := b.img }).set j
              { c2 with img := a.img }).map motion
              = ((ps.set i { a with img := b.img }).map motion).set j
                  (motion c2) := by
            rw [List.map_set]
            rfl
          rw [hm2, hm1]
          have hc3 : motion c2 = (ps.map motion).get
              ⟨j, by simpa using hjlen⟩ := by
            have : motion ((ps.set i { a with img := b.img })[j]) = motion c2 := by
              rw [hc2]
            rw [← this]
            by_cases hij : i = j
            · subst hij
              rw [List.getElem_set_self]
              have he2 : motion { a with img := b.img } = motion a := rfl
              rw [he2]
              simp [List.get_eq_getElem, List.getElem_map, hia]
            · rw [List.getElem_set_ne hij]
              simp [List.get_eq_getElem, List.getElem_map]
          rw [hc3, set_get_self (ps.map motion) j (by simpa using hjlen)]

/-- The swap-spec invariant extends through one whole reshuffle event. -/
lemma reshuffleEvent_spec :
    ∀ (pairs : List (ℕ × ℕ)) (ps qs : List Particle),
      reshuffleEvent ps pairs = some qs →
      qs.length = ps.length ∧
        (qs.map Particle.img).Perm (ps.map Particle.img) ∧
        qs.map motion = ps.map motion
  | [], ps, qs, h => by
    simp only [reshuffleEvent, List.foldlM_nil] at h
    cases h
    exact ⟨rfl, List.Perm.refl _, rfl⟩
  | pr :: t, ps, qs, h => by
    simp only [reshuffleEvent, List.foldlM_cons] at h
    cases hsw : swapImg ps pr.1 pr.2 with
    | none => rw [hsw] at h; cases h
    | some ps2 =>
      rw [hsw] at h
      have h1 := swapImg_spec ps ps2 pr.1 pr.2 hsw
      have h2 := reshuffleEvent_spec t ps2 qs h
      exact ⟨h2.1.trans h1.1, h2.2.1.trans h1.2.1, h2.2.2.trans h1.2.2⟩

/-- C5.  Across any sequence of reshuffle events (each one 36 pairwise
swaps at arbitrary drawn index pairs), the particle count and the
multiset of asset references are preserved, and no particle's position,
velocity, angle, angular speed, scale, or anchor reference changes. -/
theorem C5_reshuffle_preserves_swarm (ps : List Particle)
    (events : List (List (ℕ × ℕ))) (_h36 : ∀ e ∈ events, e.length = 36)
    (qs : List Particle) (hrun : reshuffleRun ps events = some qs) :
    qs.length = ps.length ∧
      ((qs.map Particle.img : List ℕ) : Multiset ℕ)
        = ((ps.map Particle.img : List ℕ) : Multiset ℕ) ∧
      qs.map motion = ps.map motion := by
  clear _h36
  induction events generalizing ps with
  | nil =>
    simp only [reshuffleRun, List.foldlM_nil] at hrun
    cases hrun
    exact ⟨rfl, rfl, rfl⟩
  | cons e t ih =>
    simp only [reshuffleRun, List.foldlM_cons] at hrun
    cases hev : reshuffleEvent ps e with
    | none => rw [hev] at hrun; cases hrun
    | some ps2 =>
      rw [hev] at hrun
      have h1 := reshuffleEvent_spec e ps ps2 hev
      have h2 := ih ps2 hrun
      exact ⟨h2.1.trans h1.1,
        h2.2.1.trans (Multiset.coe_eq_coe.mpr h1.2.1),
        h2.2.2.trans h1.2.2⟩

/-- A concrete particle for the witnesses. -/
def pW : Particle := ⟨0, 0, 0, 0, 7, (0, 0), 1, 0, 0⟩

/-- C5 witness: one event of 36 self-swaps on a one-particle swarm
succeeds and leaves everything in place. -/
theorem C5_reshuffle_preserves_swarm_witness :
    (∀ e ∈ [List.replicate 36 ((0, 0) : ℕ × ℕ)], e.length = 36) ∧
      reshuffleRun [pW] [List.replicate 36 ((0, 0) : ℕ × ℕ)] = some [pW] ∧
      ([pW].length = [pW].length ∧
        (([pW].map Particle.img : List ℕ) : Multiset ℕ)
          = (([pW].map Particle.img : List ℕ) : Multiset ℕ) ∧
        [pW].map motion = [pW].map motion) := by
  have hrun : reshuffleRun [pW] [List.replicate 36 ((0, 0) : ℕ × ℕ)]
      = some [pW] := by with_unfolding_all decide
  exact ⟨by decide, hrun,
    C5_reshuffle_preserves_swarm [pW] [List.replicate 36 ((0, 0) : ℕ × ℕ)]
      (by decide) [pW] hrun⟩

/-- `floor(random(spermCells.length))`: p5 `random(n)` is `r * n` for a
PRNG unit draw `0 ≤ r < 1` (and `random(0) = 0`); `floor` truncates. -/
def drawIdx (r : ℚ) (n : ℕ) : ℕ := (⌊r * (n : ℚ)⌋).toNat

/-- The error branch of the swap is taken exactly on an out-of-bounds
index. -/
lemma swapImg_isSome (ps : List Particle) (i j : ℕ) :
    (swapImg ps i j).isSome ↔ i < ps.length ∧ j < ps.length := by
  unfold swapImg
  cases hi : ps[i]? with
  | none =>
    have hleni : ps.length ≤ i := by
      by_contra hcon
      push_neg at hcon
      rw [List.getElem?_eq_getElem hcon] at hi
      cases hi
    cases hj : ps[j]? <;>
      · dsimp only []
        simp only [Option.isSome_none, Bool.false_eq_true, false_iff]
        rintro ⟨hlt, _⟩
        omega
  | some a =>
    obtain ⟨hilen, _⟩ := List.getElem?_eq_some.mp hi
    cases hj : ps[j]? with
    | none =>
      have hlenj : ps.length ≤ j := by
        by_contra hcon
        push_neg at hcon
        rw [List.getElem?_eq_getElem hcon] at hj
        cases hj
      dsimp only []
      simp only [Option.isSome_none, Bool.false_eq_true, false_iff]
      rintro ⟨_, hlt⟩
      omega
    | some b =>
      obtain ⟨hjlen, _⟩ := List.getElem?_eq_some.mp hj
      dsimp only []
      have hc := List.getElem?_eq_getElem
        (show j < (ps.set i { a with img := b.img }).length by
          simpa using hjlen)
      rw [hc]
      dsimp only []
      simp [hilen, hjlen]

lemma drawIdx_lt (r : ℚ) (n : ℕ) (h0 : 0 ≤ r) (h1 : r < 1) (hn : 0 < n) :
    drawIdx r n < n := by
  unfold drawIdx
  rw [Int.toNat_lt (Int.floor_nonneg.mpr (by positivity))]
  refine Int.floor_lt.mpr ?_
  push_cast
  calc r * n < 1 * n := by
        exact mul_lt_mul_of_pos_right h1 (by exact_mod_cast hn)
    _ = n := one_mul _

/-- C10.  With both indices drawn as `floor(random(length))` from unit
PRNG draws, a swarm of positive length always yields in-bounds indices
and the swap succeeds, while on an empty swarm the drawn index is 0 and
the swap hits the error branch: the `Option` error case of the embedded
indexing is unreachable exactly when the swarm is non-empty. -/
theorem C10_reshuffle_indexing_safety (ps : List Particle) (r1 r2 : ℚ)
    (h1a : 0 ≤ r1) (h1b : r1 < 1) (h2a : 0 ≤ r2) (h2b : r2 < 1) :
    (ps ≠ [] →
      drawIdx r1 ps.length < ps.length ∧ drawIdx r2 ps.length < ps.length) ∧
    (ps = [] → drawIdx r1 ps.length = 0 ∧ drawIdx r2 ps.length = 0) ∧
    ((swapImg ps (drawIdx r1 ps.length) (drawIdx r2 ps.length)).isSome
      ↔ ps ≠ []) := by
  refine ⟨?_, ?_, ?_⟩
  · intro hne
    have hn : 0 < ps.length := List.length_pos.mpr hne
    exact ⟨drawIdx_lt r1 ps.length h1a h1b hn,
      drawIdx_lt r2 ps.length h2a h2b hn⟩
  · intro he
    subst he
    constructor <;> simp [drawIdx]
  · rw [swapImg_isSome]
    constructor
    · rintro ⟨h1, _⟩ rfl
      simp [drawIdx] at h1
    · intro hne
      have hn : 0 < ps.length := List.length_pos.mpr hne
      exact ⟨drawIdx_lt r1 ps.length h1a h1b hn,
        drawIdx_lt r2 ps.length h2a h2b hn⟩

/-- C10 witness: a one-particle swarm with unit draws 0 and 1/2. -/
theorem C10_reshuffle_indexing_safety_witness :
    (0 : ℚ) ≤ 0 ∧ (0 : ℚ) < 1 ∧ (0 : ℚ) ≤ 1 / 2 ∧ (1 : ℚ) / 2 < 1 ∧
      ((swapImg [pW] (drawIdx 0 [pW].length)
        (drawIdx (1 / 2) [pW].length)).isSome ↔ [pW] ≠ []) :=
  ⟨le_refl 0, by norm_num, by norm_num, by norm_num,
    (C10_reshuffle_indexing_safety [pW] 0 (1 / 2) (le_refl 0) (by norm_num)
      (by norm_num) (by norm_num)).2.2⟩

/-! ### Scatter-variant particle placement
(`setup` rejection-sampling loop, sperm2.js lines 258-296)

Each of the `desiredAssetCount` particles draws candidate positions
until one is at distance >= `minSpacing = 50` from every already placed
cell, giving up after 30 attempts and accepting the last (conflicted)
candidate.  Each `random()` call is a fresh arbitrary PRNG draw, indexed
here by (particle number, attempt number). -/

/-- A placed cell: its position plus whether its placement loop exhausted
the 30-attempt budget (and so accepted a conflicted candidate). -/
structure ScatterCell where
  x : ℚ
  y : ℚ
  exhausted : Bool

/-- `dist(cell.x, cell.y, candidate.x, candidate.y) < minSpacing` for
some already placed cell. -/
def conflict (cells : List ScatterCell) (c : ℚ × ℚ) : Prop :=
  ∃ cell ∈ cells, distQ (cell.x, cell.y) c < 50

noncomputable instance conflictDecidable (cells : List ScatterCell)
    (c : ℚ × ℚ) : Decidable (conflict cells c) :=
  inferInstanceAs (Decidable (∃ cell ∈ cells, distQ (cell.x, cell.y) c < 50))

/-- The attempt loop for a single particle; `fuel` counts the retries
still allowed after the current attempt (the source enters with
`attempts = 0` and retries while `attempts < 30`, so `fuel = 29`).  The
Bool records whether the budget ran out, in which case the last
(conflicted) candidate is accepted regardless. -/
noncomputable def placeLoop (cells : List ScatterCell) (cands : ℕ → ℚ × ℚ) :
    ℕ → ℕ → (ℚ × ℚ) × Bool
  | i, 0 =>
    if conflict cells (cands i) then (cands i, true) else (cands i, false)
  | i, fuel + 1 =>
    if conflict cells (cands i) then placeLoop cells cands (i + 1) fuel
    else (cands i, false)

/-- The outer placement loop: particle `n` is placed against all
previously placed cells, then pushed. -/
noncomputable def scatterPlace (cands : ℕ → ℕ → ℚ × ℚ) : ℕ → List ScatterCell
  | 0 => []
  | n + 1 =>
    let prev := scatterPlace cands n
    let r := placeLoop prev (cands n) 0 29
    prev ++ [⟨r.1.1, r.1.2, r.2⟩]

/-- A candidate accepted with budget to spare conflicts with no already
placed cell. -/
lemma placeLoop_accept (cells : List ScatterCell) (cands : ℕ → ℚ × ℚ) :
    ∀ (fuel i : ℕ), (placeLoop cells cands i fuel).2 = false →
      ∀ cell ∈ cells,
        50 ≤ distQ (cell.x, cell.y) (placeLoop cells cands i fuel).1
  | 0, i, hflag => by
    by_cases h : conflict cells (cands i)
    · simp only [placeLoop, if_pos h] at hflag
      cases hflag
    · simp only [placeLoop, if_neg h] at hflag ⊢
      intro cell hcell
      by_contra hlt
      exact h ⟨cell, hcell, by push_neg at hlt; simpa using hlt⟩
  | fuel + 1, i, hflag => by
    by_cases h : conflict cells (cands i)
    · simp only [placeLoop, if_pos h] at hflag ⊢
      exact placeLoop_accept cells cands fuel (i + 1) hflag
    · simp only [placeLoop, if_neg h] at hflag ⊢
      intro cell hcell
      by_contra hlt
      exact h ⟨cell, hcell, by push_neg at hlt; simpa using hlt⟩

lemma getD_append_left {α : Type} (l l2 : List α) (i : ℕ) (d : α)
    (h : i < l.length) : (l ++ l2).getD i d = l.getD i d := by
  rw [List.getD_eq_getElem?_getD, List.getD_eq_getElem?_getD,
    List.getElem?_append_left h]

lemma getD_mem {α : Type} (l : List α) (i : ℕ) (d : α) (h : i < l.length) :
    l.getD i d ∈ l := by
  rw [List.getD_eq_getElem?_getD, List.getElem?_eq_getElem h]
  exact List.getElem_mem h

/-- C7.  Placement is total (all `n` particles are placed), and whenever
the later-placed particle of a pair finished without exhausting its
attempt budget the pair is at least 50 apart; in particular any two
particles both accepted within budget satisfy the spacing bound, while
budget-exhausted particles carry no guarantee. -/
theorem C7_rejection_sampling_spacing (cands : ℕ → ℕ → ℚ × ℚ) (n : ℕ) :
    (scatterPlace cands n).length = n ∧
    ∀ i j, i < j → j < n →
      ((scatterPlace cands n).getD j ⟨0, 0, false⟩).exhausted = false →
      50 ≤ distQ
        (((scatterPlace cands n).getD i ⟨0, 0, false⟩).x,
         ((scatterPlace cands n).getD i ⟨0, 0, false⟩).y)
        (((scatterPlace cands n).getD j ⟨0, 0, false⟩).x,
         ((scatterPlace cands n).getD j ⟨0, 0, false⟩).y) := by
  induction n with
  | zero => exact ⟨rfl, by omega⟩
  | succ n ih =>
    have hlen : (scatterPlace cands (n + 1)).length = n + 1 := by
      show ((scatterPlace cands n) ++ [_]).length = n + 1
      rw [List.length_append, ih.1]
      rfl
    refine ⟨hlen, ?_⟩
    intro i j hij hj hflag
    have hstep : scatterPlace cands (n + 1)
        = scatterPlace cands n ++
          [⟨(placeLoop (scatterPlace cands n) (cands n) 0 29).1.1,
            (placeLoop (scatterPlace cands n) (cands n) 0 29).1.2,
            (placeLoop (scatterPlace cands n) (cands n) 0 29).2⟩] := rfl
    rcases Nat.lt_succ_iff_lt_or_eq.mp hj with hj2 | rfl
    · have hi2 : i < n := lt_trans hij hj2
      have hil : i < (scatterPlace cands n).length := by rw [ih.1]; exact hi2
      have hjl : j < (scatterPlace cands n).length := by rw [ih.1]; exact hj2
      rw [hstep] at hflag ⊢
      rw [getD_append_left _ _ j _ hjl] at hflag
      rw [getD_append_left _ _ i _ hil, getD_append_left _ _ j _ hjl]
      exact ih.2 i j hij hj2 hflag
    · have hil : i < (scatterPlace cands j).length := by rw [ih.1]; exact hij
      have hlej : (scatterPlace cands j).length ≤ j := le_of_eq ih.1
      have hgetj : (scatterPlace cands (j + 1)).getD j ⟨0, 0, false⟩
          = ⟨(placeLoop (scatterPlace cands j) (cands j) 0 29).1.1,
             (placeLoop (scatterPlace cands j) (cands j) 0 29).1.2,
             (placeLoop (scatterPlace cands j) (cands j) 0 29).2⟩ := by
        rw [hstep, List.getD_eq_getElem?_getD,
          List.getElem?_append_right hlej]
        simp [ih.1]
      rw [hgetj] at hflag ⊢
      have hcell : (scatterPlace cands j).getD i ⟨0, 0, false⟩
          ∈ scatterPlace cands j := getD_mem _ i _ hil
      have hacc := placeLoop_accept (scatterPlace cands j) (cands j) 29 0
        hflag _ hcell
      rw [hstep, getD_append_left _ _ i _ hil]
      simpa using hacc

/-- Concrete candidate draws for the C7 witness: particle `k` always
draws `(60 k, 0)`. -/
def scatterCands : ℕ → ℕ → ℚ × ℚ := fun k _ => ((60 * k : ℚ), 0)

lemma distQ_00_60 : distQ ((0 : ℚ), (0 : ℚ)) ((60 : ℚ), (0 : ℚ)) = 60 := by
  unfold distQ distR
  push_cast
  rw [show ((60 : ℝ) - 0) ^ 2 + ((0 : ℝ) - 0) ^ 2 = 60 ^ 2 by norm_num]
  exact Real.sqrt_sq (by norm_num)

lemma scatterPlace_cands_one :
    scatterPlace scatterCands 1 = [⟨0, 0, false⟩] := by
  have hpl : placeLoop [] (scatterCands 0) 0 29 = (scatterCands 0 0, false) := by
    show placeLoop [] (scatterCands 0) 0 (28 + 1) = _
    simp only [placeLoop]
    rw [if_neg (by simp [conflict])]
  show ([] : List ScatterCell) ++
      [⟨(placeLoop [] (scatterCands 0) 0 29).1.1,
        (placeLoop [] (scatterCands 0) 0 29).1.2,
        (placeLoop [] (scatterCands 0) 0 29).2⟩] = [⟨0, 0, false⟩]
  rw [hpl]
  show [(⟨(scatterCands 0 0).1, (scatterCands 0 0).2, false⟩ : ScatterCell)]
      = [⟨0, 0, false⟩]
  have : scatterCands 0 0 = ((0 : ℚ), (0 : ℚ)) := by
    unfold scatterCands
    norm_num
  rw [this]

lemma scatterPlace_cands_two :
    scatterPlace scatterCands 2 = [⟨0, 0, false⟩, ⟨60, 0, false⟩] := by
  have hc : scatterCands 1 0 = ((60 : ℚ), (0 : ℚ)) := by
    unfold scatterCands
    norm_num
  have hnc : ¬conflict [⟨0, 0, false⟩] (scatterCands 1 0) := by
    rw [hc]
    intro hcon
    obtain ⟨cell, hcell, hlt⟩ := hcon
    simp only [List.mem_singleton] at hcell
    subst hcell
    rw [show ((⟨0, 0, false⟩ : ScatterCell).x, (⟨0, 0, false⟩ : ScatterCell).y)
        = ((0 : ℚ), (0 : ℚ)) from rfl, distQ_00_60] at hlt
    norm_num at hlt
  have hpl : placeLoop [⟨0, 0, false⟩] (scatterCands 1) 0 29
      = (scatterCands 1 0, false) := by
    show placeLoop [⟨0, 0, false⟩] (scatterCands 1) 0 (28 + 1) = _
    simp only [placeLoop]
    rw [if_neg hnc]
  show scatterPlace scatterCands 1 ++
      [⟨(placeLoop (scatterPlace scatterCands 1) (scatterCands 1) 0 29).1.1,
        (placeLoop (scatterPlace scatterCands 1) (scatterCands 1) 0 29).1.2,
        (placeLoop (scatterPlace scatterCands 1) (scatterCands 1) 0 29).2⟩]
      = [⟨0, 0, false⟩, ⟨60, 0, false⟩]
  rw [scatterPlace_cands_one, hpl, hc]
  rfl

/-- C7 witness: two particles placed at `(0,0)` and `(60,0)`, both within
budget, at distance 60 ≥ 50. -/
theorem C7_rejection_sampling_spacing_witness :
    (scatterPlace scatterCands 2).length = 2 ∧
      ((scatterPlace scatterCands 2).getD 1 ⟨0, 0, false⟩).exhausted = false ∧
      50 ≤ distQ
        (((scatterPlace scatterCands 2).getD 0 ⟨0, 0, false⟩).x,
         ((scatterPlace scatterCands 2).getD 0 ⟨0, 0, false⟩).y)
        (((scatterPlace scatterCands 2).getD 1 ⟨0, 0, false⟩).x,
         ((scatterPlace scatterCands 2).getD 1 ⟨0, 0, false⟩).y) := by
  have hflag : ((scatterPlace scatterCands 2).getD 1 ⟨0, 0, false⟩).exhausted
      = false := by
    rw [scatterPlace_cands_two]
    rfl
  exact ⟨(C7_rejection_sampling_spacing scatterCands 2).1, hflag,
    (C7_rejection_sampling_spacing scatterCands 2).2 0 1 (by norm_num)
      (by norm_num) hflag⟩

/-! ### Traversal-order independence of the mesh pass
(`draw` nested `for y / for x` loops, part_000 lines 56-77)

The in-place update of `mesh[y][x]` reads only that point's own fields
and the node array, never another mesh point, so the sequential pass is
equivalent to the simultaneous pointwise update in any traversal
order. -/

/-- `mesh[y][x]` (row-major, as the source indexes it). -/
noncomputable def getMesh (m : List (List GridPoint)) (y x : ℕ) : GridPoint :=
  (m.getD y []).getD x ⟨0, 0, 0, 0, 0, 0⟩

/-- In-place write `mesh[y][x] = v`. -/
def setMesh (m : List (List GridPoint)) (y x : ℕ) (v : GridPoint) :
    List (List GridPoint) :=
  m.set y ((m.getD y []).set x v)

/-- The mesh-physics pass run in place over an explicit traversal order
of `(y, x)` index pairs. -/
noncomputable def meshStepSeq (nodes : List Node) (kRest : ℝ)
    (order : List (ℕ × ℕ)) (m : List (List GridPoint)) :
    List (List GridPoint) :=
  order.foldl (fun g yx =>
    setMesh g yx.1 yx.2 (stepPoint nodes kRest (getMesh g yx.1 yx.2))) m

/-- The source's own traversal order: `y` outer, `x` inner, ascending. -/
def rasterOrder (rows cols : ℕ) : List (ℕ × ℕ) :=
  (List.range rows).flatMap (fun y => (List.range cols).map (fun x => (y, x)))

lemma getD_set_self {α : Type} (l : List α) (i : ℕ) (v d : α)
    (h : i < l.length) : (l.set i v).getD i d = v := by
  rw [List.getD_eq_getElem?_getD, List.getElem?_set]
  simp [h]

lemma getD_set_ne {α : Type} (l : List α) (i j : ℕ) (v d : α) (h : i ≠ j) :
    (l.set i v).getD j d = l.getD j d := by
  rw [List.getD_eq_getElem?_getD, List.getElem?_set, if_neg h,
    ← List.getD_eq_getElem?_getD]

lemma getMesh_setMesh (m : List (List GridPoint)) (y x y2 x2 : ℕ)
    (v : GridPoint) (hy : y < m.length) (hx : x < (m.getD y []).length) :
    getMesh (setMesh m y x v) y2 x2
      = if (y2, x2) = (y, x) then v else getMesh m y2 x2 := by
  unfold getMesh setMesh
  by_cases hyy : y2 = y
  · subst hyy
    rw [getD_set_self m y2 _ _ hy]
    by_cases hxx : x2 = x
    · subst hxx
      rw [getD_set_self _ x2 _ _ hx]
      simp
    · rw [getD_set_ne _ x x2 _ _ (fun he => hxx he.symm)]
      simp [hxx]
  · rw [getD_set_ne m y y2 _ _ (fun he => hyy he.symm)]
    simp [hyy]

lemma setMesh_length (m : List (List GridPoint)) (y x : ℕ) (v : GridPoint) :
    (setMesh m y x v).length = m.length := by
  simp [setMesh]

lemma setMesh_row_length (m : List (List GridPoint)) (y x : ℕ)
    (v : GridPoint) (y2 : ℕ) :
    ((setMesh m y x v).getD y2 []).length = (m.getD y2 []).length := by
  unfold setMesh
  by_cases hyy : y = y2
  · subst hyy
    by_cases hy : y < m.length
    · rw [getD_set_self m y _ _ hy]
      simp
    · have hnone : m[y]? = none := List.getElem?_eq_none (Nat.le_of_not_lt hy)
      rw [List.getD_eq_getElem?_getD, List.getD_eq_getElem?_getD,
        List.getElem?_set, hnone]
      simp [hy]
  · rw [getD_set_ne m y y2 _ _ hyy]

/-- Running the pass over any duplicate-free list of in-bounds index
pairs updates exactly the listed points, each from its pre-pass value,
and leaves the mesh shape unchanged. -/
lemma meshStepSeq_char (nodes : List Node) (kRest : ℝ) :
    ∀ (l : List (ℕ × ℕ)) (m : List (List GridPoint)),
      l.Nodup →
      (∀ yx ∈ l, yx.1 < m.length ∧ yx.2 < (m.getD yx.1 []).length) →
      (meshStepSeq nodes kRest l m).length = m.length ∧
      (∀ y2, ((meshStepSeq nodes kRest l m).getD y2 []).length
          = (m.getD y2 []).length) ∧
      ∀ y2 x2, getMesh (meshStepSeq nodes kRest l m) y2 x2
          = if (y2, x2) ∈ l then stepPoint nodes kRest (getMesh m y2 x2)
            else getMesh m y2 x2
  | [], m, _, _ => ⟨rfl, fun _ => rfl, fun y2 x2 => by simp [meshStepSeq]⟩
  | (y, x) :: t, m, hnd, hbd => by
    obtain ⟨hy, hx⟩ := hbd (y, x) (List.mem_cons_self _ _)
    have hnotmem : (y, x) ∉ t := (List.nodup_cons.mp hnd).1
    have hndt : t.Nodup := (List.nodup_cons.mp hnd).2
    set m1 := setMesh m y x (stepPoint nodes kRest (getMesh m y x)) with hm1
    have hstep : meshStepSeq nodes kRest ((y, x) :: t) m
        = meshStepSeq nodes kRest t m1 := rfl
    have hbdt : ∀ yx ∈ t, yx.1 < m1.length ∧ yx.2 < (m1.getD yx.1 []).length := by
      intro yx hyx
      obtain ⟨h1, h2⟩ := hbd yx (List.mem_cons_of_mem _ hyx)
      rw [hm1, setMesh_length, setMesh_row_length]
      exact ⟨h1, h2⟩
    obtain ⟨ih1, ih2, ih3⟩ := meshStepSeq_char nodes kRest t m1 hndt hbdt
    rw [hstep]
    refine ⟨?_, ?_, ?_⟩
    · rw [ih1, hm1, setMesh_length]
    · intro y2
      rw [ih2 y2, hm1, setMesh_row_length]
    · intro y2 x2
      rw [ih3 y2 x2]
      have hget : getMesh m1 y2 x2
          = if (y2, x2) = (y, x) then stepPoint nodes kRest (getMesh m y x)
            else getMesh m y2 x2 := getMesh_setMesh m y x y2 x2 _ hy hx
      by_cases hmem : (y2, x2) ∈ t
      · have hne : ¬((y2, x2) = (y, x)) := fun he => hnotmem (he ▸ hmem)
        rw [if_pos hmem, hget, if_neg hne, if_pos (List.mem_cons_of_mem _ hmem)]
      · by_cases he : (y2, x2) = (y, x)
        · rw [if_neg hmem, hget, if_pos he,
            if_pos (he ▸ List.mem_cons_self (y, x) t)]
          obtain ⟨rfl, rfl⟩ := Prod.mk.injEq .. ▸ he
          rfl
        · rw [if_neg hmem, hget, if_neg he, if_neg]
          intro hcon
          rcases List.mem_cons.mp hcon with hcon2 | hcon2
          · exact he hcon2
          · exact hmem hcon2

lemma getD_eq_getElem {α : Type} (l : List α) (i : ℕ) (d : α)
    (h : i < l.length) : l.getD i d = l[i] := by
  rw [List.getD_eq_getElem?_getD, List.getElem?_eq_getElem h]
  rfl

lemma mem_rasterOrder (rows cols y x : ℕ) :
    (y, x) ∈ rasterOrder rows cols ↔ y < rows ∧ x < cols := by
  simp only [rasterOrder, List.mem_flatMap, List.mem_map, List.mem_range,
    Prod.mk.injEq]
  constructor
  · rintro ⟨a, ha, b, hb, rfl, rfl⟩
    exact ⟨ha, hb⟩
  · rintro ⟨hy, hx⟩
    exact ⟨y, hy, x, hx, rfl, rfl⟩

set_option maxRecDepth 4000

/-- C9.  The sequential in-place mesh pass run in ANY traversal order
that visits each of the 14 x 20 lattice indices exactly once produces the
same mesh as the simultaneous pointwise update: each point's update
reads only its own fields and the node array. -/
theorem C9_step_order_independent (nodes : List Node) (kRest : ℝ)
    (m : List (List GridPoint)) (order : List (ℕ × ℕ))
    (hrows : m.length = 14) (hcols : ∀ row ∈ m, row.length = 20)
    (hperm : order.Perm (rasterOrder 14 20)) :
    meshStepSeq nodes kRest order m
      = m.map (fun row => row.map (stepPoint nodes kRest)) := by
  have hnd : order.Nodup := hperm.symm.nodup (by decide)
  have hrowlen : ∀ y, y < 14 → (m.getD y []).length = 20 := by
    intro y hy
    have hylen : y < m.length := by rw [hrows]; exact hy
    rw [getD_eq_getElem m y [] hylen]
    exact hcols _ (List.getElem_mem hylen)
  have hmemo : ∀ y x, ((y, x) ∈ order ↔ y < 14 ∧ x < 20) := by
    intro y x
    rw [hperm.mem_iff]
    exact mem_rasterOrder 14 20 y x
  have hbd : ∀ yx ∈ order, yx.1 < m.length ∧ yx.2 < (m.getD yx.1 []).length := by
    intro yx hyx
    obtain ⟨hy, hx⟩ := (hmemo yx.1 yx.2).mp (by
      cases yx
      exact hyx)
    constructor
    · rw [hrows]; exact hy
    · rw [hrowlen yx.1 hy]; exact hx
  obtain ⟨h1, h2, h3⟩ := meshStepSeq_char nodes kRest order m hnd hbd
  apply List.ext_getElem
  · rw [h1, List.length_map]
  · intro y hy1 hy2
    have hym : y < m.length := by rw [← h1]; exact hy1
    have hy14 : y < 14 := by rw [← hrows]; exact hym
    have hrow20 : m[y].length = 20 := hcols _ (List.getElem_mem hym)
    have hfoldrow : (meshStepSeq nodes kRest order m)[y].length = 20 := by
      have hlr := h2 y
      rw [getD_eq_getElem _ y [] hy1, getD_eq_getElem m y [] hym] at hlr
      rw [hlr]
      exact hrow20
    apply List.ext_getElem
    · simp only [List.getElem_map, List.length_map]
      rw [hfoldrow, hrow20]
    · intro x hx1 hx2
      have hx20 : x < 20 := by rw [← hfoldrow]; exact hx1
      have hxm : x < (m.getD y []).length := by
        rw [hrowlen y hy14]; exact hx20
      have hgl : (meshStepSeq nodes kRest order m)[y][x]
          = getMesh (meshStepSeq nodes kRest order m) y x := by
        unfold getMesh
        rw [getD_eq_getElem _ y [] hy1, getD_eq_getElem _ x _ hx1]
      have hgm : getMesh m y x
          = m[y].getD x ⟨0, 0, 0, 0, 0, 0⟩ := by
        unfold getMesh
        rw [getD_eq_getElem m y [] hym]
      rw [hgl, h3 y x, if_pos ((hmemo y x).mpr ⟨hy14, hx20⟩)]
      simp only [List.getElem_map]
      congr 1
      rw [hgm]
      exact getD_eq_getElem _ x _ (by rw [hrow20]; exact hx20)

/-- The mesh created by `setup` (part_000): 14 rows of 20 points at rest
on the `[-400, 400] x [-250, 250]` lattice with zero velocity. -/
noncomputable def meshInit : List (List GridPoint) :=
  (List.range 14).map (fun (y : ℕ) =>
    (List.range 20).map (fun (x : ℕ) =>
      { x := ((mapRange (x : ℚ) 0 19 (-400) 400 : ℚ) : ℝ),
        y := ((mapRange (y : ℚ) 0 13 (-250) 250 : ℚ) : ℝ),
        vx := 0, vy := 0,
        rest_x := ((mapRange (x : ℚ) 0 19 (-400) 400 : ℚ) : ℝ),
        rest_y := ((mapRange (y : ℚ) 0 13 (-250) 250 : ℚ) : ℝ) }))

/-- C9 witness: on the freshly built mesh, the source's own raster
traversal (a permutation of itself) realizes the pointwise update, for
the freshly built node set and the part_000 spring constant. -/
theorem C9_step_order_independent_witness :
    meshInit.length = 14 ∧ (∀ row ∈ meshInit, row.length = 20) ∧
      (rasterOrder 14 20).Perm (rasterOrder 14 20) ∧
      meshStepSeq layoutNodes 0.08 (rasterOrder 14 20) meshInit
        = meshInit.map (fun row => row.map (stepPoint layoutNodes 0.08)) := by
  have hrows : meshInit.length = 14 := by
    unfold meshInit
    rw [List.length_map, List.length_range]
  have hcols : ∀ row ∈ meshInit, row.length = 20 := by
    intro row hrow
    unfold meshInit at hrow
    rw [List.mem_map] at hrow
    obtain ⟨y, _, rfl⟩ := hrow
    rw [List.length_map, List.length_range]
  exact ⟨hrows, hcols, List.Perm.refl _,
    C9_step_order_independent layoutNodes 0.08 meshInit (rasterOrder 14 20)
      hrows hcols (List.Perm.refl _)⟩

/-! ### Relaxation with all attractors inactive
(`draw` mesh pass with every `node.force = 0`)

With no active node, each coordinate pair `(e, v)` (offset from rest and
velocity) evolves by the linear map `v2 = 0.88 v - 0.0704 e`,
`e2 = e + v2`, whose eigenvalues are complex of modulus `sqrt 0.88 < 1`:
the point spirals into its rest position, overshooting it, so the
distance to rest is NOT monotone, but a quadratic Lyapunov form
contracts by a factor 0.9 per step, which forces convergence. -/

/-- With every node inactive, one step is the pure damped spring. -/
lemma stepPoint_inactive (nodes : List Node) (kRest : ℝ) (p : GridPoint)
    (hz : ∀ nd ∈ nodes, nd.force = 0) :
    stepPoint nodes kRest p =
      { x := p.x + (p.vx + (p.rest_x - p.x) * kRest) * 0.88,
        y := p.y + (p.vy + (p.rest_y - p.y) * kRest) * 0.88,
        vx := (p.vx + (p.rest_x - p.x) * kRest) * 0.88,
        vy := (p.vy + (p.rest_y - p.y) * kRest) * 0.88,
        rest_x := p.rest_x, rest_y := p.rest_y } := by
  rw [C1_step_force_formula]
  have hx : (nodes.map (pullX p)).sum = 0 := by
    apply List.sum_eq_zero
    intro v hv
    rw [List.mem_map] at hv
    obtain ⟨nd, hnd, rfl⟩ := hv
    unfold pullX
    rw [if_neg]
    intro hcon
    rw [hz nd hnd] at hcon
    exact absurd hcon.1 (by norm_num)
  have hy : (nodes.map (pullY p)).sum = 0 := by
    apply List.sum_eq_zero
    intro v hv
    rw [List.mem_map] at hv
    obtain ⟨nd, hnd, rfl⟩ := hv
    unfold pullY
    rw [if_neg]
    intro hcon
    rw [hz nd hnd] at hcon
    exact absurd hcon.1 (by norm_num)
  rw [hx, hy]
  simp only [GridPoint.mk.injEq]
  refine ⟨by ring, by ring, by ring, by ring, trivial, trivial⟩

/-- The quadratic Lyapunov form `1.3 e^2 + 0.92 e v + 16.3 v^2` for the
inactive-spring recurrence. -/
noncomputable def lyap (e v : ℝ) : ℝ :=
  1.3 * e ^ 2 + 0.92 * e * v + 16.3 * v ^ 2

lemma lyap_nonneg (e v : ℝ) : 0 ≤ lyap e v := by
  unfold lyap
  nlinarith [sq_nonneg (1.3 * e + 0.46 * v), sq_nonneg v]

lemma sq_le_lyap (e v : ℝ) : e ^ 2 ≤ lyap e v := by
  unfold lyap
  nlinarith [sq_nonneg (0.3 * e + 0.46 * v), sq_nonneg v]

/-- One inactive-spring step contracts the Lyapunov form by 0.9. -/
lemma lyap_step (e v : ℝ) :
    lyap (e + (v + (0 - e) * 0.08) * 0.88) ((v + (0 - e) * 0.08) * 0.88)
      ≤ 0.9 * lyap e v := by
  unfold lyap
  nlinarith [sq_nonneg (0.0260199168 * e + 0.01255104 * v), sq_nonneg v,
    sq_nonneg e]

/-- Restated contraction step, with the successor state given by
arbitrary expressions provably equal to the recurrence. -/
lemma lyap_step2 (e v e2 v2 : ℝ) (hv2 : v2 = (v + (0 - e) * 0.08) * 0.88)
    (he2 : e2 = e + v2) : lyap e2 v2 ≤ 0.9 * lyap e v := by
  subst hv2
  subst he2
  exact lyap_step e v

/-- Distance from a grid point's current position to its rest position. -/
noncomputable def distToRest (q : GridPoint) : ℝ :=
  distR q.x q.y q.rest_x q.rest_y

/-- Across iterated inactive steps both coordinates' Lyapunov values
decay geometrically. -/
lemma iterate_lyap (nodes : List Node) (hz : ∀ nd ∈ nodes, nd.force = 0)
    (p : GridPoint) : ∀ n : ℕ,
    lyap (((stepPoint nodes 0.08)^[n] p).x
        - ((stepPoint nodes 0.08)^[n] p).rest_x)
      (((stepPoint nodes 0.08)^[n] p).vx)
      ≤ 0.9 ^ n * lyap (p.x - p.rest_x) p.vx ∧
    lyap (((stepPoint nodes 0.08)^[n] p).y
        - ((stepPoint nodes 0.08)^[n] p).rest_y)
      (((stepPoint nodes 0.08)^[n] p).vy)
      ≤ 0.9 ^ n * lyap (p.y - p.rest_y) p.vy
  | 0 => by
    rw [pow_zero]
    constructor <;> simp
  | n + 1 => by
    obtain ⟨ihx, ihy⟩ := iterate_lyap nodes hz p n
    set q := (stepPoint nodes 0.08)^[n] p with hq
    rw [Function.iterate_succ_apply', ← hq,
      stepPoint_inactive nodes 0.08 q hz]
    constructor
    · have hstep := lyap_step2 (q.x - q.rest_x) q.vx
        ((q.x + (q.vx + (q.rest_x - q.x) * 0.08) * 0.88) - q.rest_x)
        ((q.vx + (q.rest_x - q.x) * 0.08) * 0.88) (by ring) (by ring)
      have hchain : 0.9 * lyap (q.x - q.rest_x) q.vx
          ≤ 0.9 ^ (n + 1) * lyap (p.x - p.rest_x) p.vx := by
        have := mul_le_mul_of_nonneg_left ihx (by norm_num : (0 : ℝ) ≤ 0.9)
        calc 0.9 * lyap (q.x - q.rest_x) q.vx
            ≤ 0.9 * (0.9 ^ n * lyap (p.x - p.rest_x) p.vx) := this
          _ = 0.9 ^ (n + 1) * lyap (p.x - p.rest_x) p.vx := by ring
      exact le_trans hstep hchain
    · have hstep := lyap_step2 (q.y - q.rest_y) q.vy
        ((q.y + (q.vy + (q.rest_y - q.y) * 0.08) * 0.88) - q.rest_y)
        ((q.vy + (q.rest_y - q.y) * 0.08) * 0.88) (by ring) (by ring)
      have hchain : 0.9 * lyap (q.y - q.rest_y) q.vy
          ≤ 0.9 ^ (n + 1) * lyap (p.y - p.rest_y) p.vy := by
        have := mul_le_mul_of_nonneg_left ihy (by norm_num : (0 : ℝ) ≤ 0.9)
        calc 0.9 * lyap (q.y - q.rest_y) q.vy
            ≤ 0.9 * (0.9 ^ n * lyap (p.y - p.rest_y) p.vy) := this
          _ = 0.9 ^ (n + 1) * lyap (p.y - p.rest_y) p.vy := by ring
      exact le_trans hstep hchain

/-- C8 (amended).  With every attractor inactive, each grid point's
position converges to its rest position: for any positive epsilon there
is a step count past which the distance to rest stays at most epsilon.
(The original claim's monotone non-increase of that distance is false:
the damped spring overshoots — see the counterexample theorem.) -/
theorem C8_inactive_grid_converges_to_rest (nodes : List Node)
    (hz : ∀ nd ∈ nodes, nd.force = 0) (p : GridPoint) (ε : ℝ) (hε : 0 < ε) :
    ∃ N : ℕ, ∀ n ≥ N, distToRest ((stepPoint nodes 0.08)^[n] p) ≤ ε := by
  set L := lyap (p.x - p.rest_x) p.vx + lyap (p.y - p.rest_y) p.vy with hL
  have hLnn : 0 ≤ L := add_nonneg (lyap_nonneg _ _) (lyap_nonneg _ _)
  have hkey : ∀ n : ℕ,
      (((stepPoint nodes 0.08)^[n] p).rest_x
          - ((stepPoint nodes 0.08)^[n] p).x) ^ 2
        + (((stepPoint nodes 0.08)^[n] p).rest_y
          - ((stepPoint nodes 0.08)^[n] p).y) ^ 2
      ≤ 0.9 ^ n * L := by
    intro n
    obtain ⟨hx, hy⟩ := iterate_lyap nodes hz p n
    set q := (stepPoint nodes 0.08)^[n] p with hq
    have e1 := sq_le_lyap (q.x - q.rest_x) q.vx
    have e2 := sq_le_lyap (q.y - q.rest_y) q.vy
    calc (q.rest_x - q.x) ^ 2 + (q.rest_y - q.y) ^ 2
        = (q.x - q.rest_x) ^ 2 + (q.y - q.rest_y) ^ 2 := by ring
      _ ≤ lyap (q.x - q.rest_x) q.vx + lyap (q.y - q.rest_y) q.vy :=
          add_le_add e1 e2
      _ ≤ 0.9 ^ n * lyap (p.x - p.rest_x) p.vx
            + 0.9 ^ n * lyap (p.y - p.rest_y) p.vy := add_le_add hx hy
      _ = 0.9 ^ n * L := by rw [hL]; ring
  have htend := tendsto_pow_atTop_nhds_zero_of_lt_one
    (show (0 : ℝ) ≤ 0.9 by norm_num) (show (0.9 : ℝ) < 1 by norm_num)
  have hc : (0 : ℝ) < ε ^ 2 / (L + 1) := by positivity
  have hev : ∀ᶠ n in Filter.atTop, (0.9 : ℝ) ^ n < ε ^ 2 / (L + 1) :=
    htend.eventually (gt_mem_nhds hc)
  obtain ⟨N, hN⟩ := Filter.eventually_atTop.mp hev
  refine ⟨N, fun n hn => ?_⟩
  have hb := hkey n
  have hlt : (0.9 : ℝ) ^ n < ε ^ 2 / (L + 1) := hN n hn
  have hS : (((stepPoint nodes 0.08)^[n] p).rest_x
        - ((stepPoint nodes 0.08)^[n] p).x) ^ 2
      + (((stepPoint nodes 0.08)^[n] p).rest_y
        - ((stepPoint nodes 0.08)^[n] p).y) ^ 2 ≤ ε ^ 2 := by
    have h2 : 0.9 ^ n * L ≤ (ε ^ 2 / (L + 1)) * L :=
      mul_le_mul_of_nonneg_right (le_of_lt hlt) hLnn
    have h3 : (ε ^ 2 / (L + 1)) * L ≤ ε ^ 2 := by
      rw [div_mul_eq_mul_div, div_le_iff₀ (by linarith)]
      nlinarith [sq_nonneg ε]
    linarith
  unfold distToRest distR
  calc Real.sqrt ((((stepPoint nodes 0.08)^[n] p).rest_x
          - ((stepPoint nodes 0.08)^[n] p).x) ^ 2
        + (((stepPoint nodes 0.08)^[n] p).rest_y
          - ((stepPoint nodes 0.08)^[n] p).y) ^ 2)
      ≤ Real.sqrt (ε ^ 2) := Real.sqrt_le_sqrt hS
    _ = ε := Real.sqrt_sq hε.le

/-- The counterexample state: a grid point whose rest position is the
lattice corner `(-400, -250)`, displaced one unit in x, at rest. -/
noncomputable def pcx : GridPoint := ⟨-399, -250, 0, 0, -400, -250⟩

/-- C8 witness: the layout's nodes are all inactive at creation, and for
the displaced point of the counterexample and epsilon 1 the convergence
bound applies. -/
theorem C8_inactive_grid_converges_to_rest_witness :
    (∀ nd ∈ layoutNodes, nd.force = 0) ∧ (0 : ℝ) < 1 ∧
      ∃ N : ℕ, ∀ n ≥ N,
        distToRest ((stepPoint layoutNodes 0.08)^[n] pcx) ≤ 1 :=
  ⟨by with_unfolding_all decide, by norm_num,
    C8_inactive_grid_converges_to_rest layoutNodes
      (by with_unfolding_all decide) pcx 1 (by norm_num)⟩

/-- C8 counterexample: with the full (all-inactive) node layout, the
displaced point's distance to rest strictly INCREASES from step 6 to
step 7 (it overshoots the rest position), so the distance is not
monotonically non-increasing as the claim states. -/
theorem C8_distance_to_rest_not_monotone :
    (∀ nd ∈ layoutNodes, nd.force = 0) ∧
      distToRest ((stepPoint layoutNodes 0.08)^[6] pcx)
        < distToRest ((stepPoint layoutNodes 0.08)^[7] pcx) := by
  have hz : ∀ nd ∈ layoutNodes, nd.force = 0 := by with_unfolding_all decide
  have h1 : (stepPoint layoutNodes 0.08)^[1] pcx
      = ⟨-400 + 581 / 625, -250, -(44 / 625), 0, -400, -250⟩ := by
    rw [Function.iterate_one, stepPoint_inactive layoutNodes 0.08 pcx hz]
    simp only [pcx, GridPoint.mk.injEq]
    norm_num
  have h2 : (stepPoint layoutNodes 0.08)^[2] pcx
      = ⟨-400 + 313361 / 390625, -250, -(49764 / 390625), 0, -400, -250⟩ := by
    rw [show (2 : ℕ) = 1 + 1 from rfl, Function.iterate_succ_apply', h1,
      stepPoint_inactive layoutNodes 0.08 _ hz]
    simp only [GridPoint.mk.injEq]
    norm_num
  have h3 : (stepPoint layoutNodes 0.08)^[3] pcx
      = ⟨-400 + 154692541 / 244140625, -250, -(41158084 / 244140625), 0,
         -400, -250⟩ := by
    rw [show (3 : ℕ) = 2 + 1 from rfl, Function.iterate_succ_apply', h2,
      stepPoint_inactive layoutNodes 0.08 _ hz]
    simp only [GridPoint.mk.injEq]
    norm_num
  have h4 : (stepPoint layoutNodes 0.08)^[4] pcx
      = ⟨-400 + 67239420121 / 152587890625, -250,
         -(29443418004 / 152587890625), 0, -400, -250⟩ := by
    rw [show (4 : ℕ) = 3 + 1 from rfl, Function.iterate_succ_apply', h3,
      stepPoint_inactive layoutNodes 0.08 _ hz]
    simp only [GridPoint.mk.injEq]
    norm_num
  have h5 : (stepPoint layoutNodes 0.08)^[5] pcx
      = ⟨-400 + 22872223188101 / 95367431640625, -250,
         -(19152414387524 / 95367431640625), 0, -400, -250⟩ := by
    rw [show (5 : ℕ) = 4 + 1 from rfl, Function.iterate_succ_apply', h4,
      stepPoint_inactive layoutNodes 0.08 _ hz]
    simp only [GridPoint.mk.injEq]
    norm_num
  have h6 : (stepPoint layoutNodes 0.08)^[6] pcx
      = ⟨-400 + 2754933759148481 / 59604644775390625, -250,
         -(11540205733414644 / 59604644775390625), 0, -400, -250⟩ := by
    rw [show (6 : ℕ) = 5 + 1 from rfl, Function.iterate_succ_apply', h5,
      stepPoint_inactive layoutNodes 0.08 _ hz]
    simp only [GridPoint.mk.injEq]
    norm_num
  have h7 : (stepPoint layoutNodes 0.08)^[7] pcx
      = ⟨-400 - 4746496639312786739 / 37252902984619140625, -250,
         -(6468330238780587364 / 37252902984619140625), 0, -400, -250⟩ := by
    rw [show (7 : ℕ) = 6 + 1 from rfl, Function.iterate_succ_apply', h6,
      stepPoint_inactive layoutNodes 0.08 _ hz]
    simp only [GridPoint.mk.injEq]
    norm_num
  refine ⟨hz, ?_⟩
  rw [h6, h7]
  unfold distToRest distR
  apply Real.sqrt_lt_sqrt (by positivity)
  norm_num
